import Mathlib

/-!
Shallow embedding of the `consistent-hashing` repository's core:
the hash ring (`src/crates/corelib/src/ring/ring.rs`), the Murmur3 token
(`src/crates/corelib/src/token/murmur3.rs`), and the simple replication
strategy (`src/crates/replication/src/strategy/simple.rs`).

Modelling choices, all taken from the source:
* `Murmur3Token` is a `u64` newtype; we model token values as `Nat` together
  with explicit `< 2^64` bounds where u64 arithmetic matters.
* `NodeId` is a `u128` newtype; node ids are modelled as `Nat`.
* `BTreeMap<Murmur3Token, NodeId>` is modelled as an association list sorted
  strictly by key; `insert` keeps the list sorted and overwrites an existing
  key (BTreeMap semantics), `range(token..).next()` is the first entry with
  key ≥ token, `first_key_value` is the head.
* `HashMap<NodeId, Node>` is modelled as an association list with unique keys;
  `insert` overwrites in place or appends, `remove` filters the key out.
* The SipHash-1-3 hashing of keys and of the vnode strings `"{node_id}:{i}"`
  is a fixed deterministic function; we model it by explicit function
  parameters `ph : List Nat → Nat` (key bytes to token, the partitioner) and
  `vh : Nat → Nat → Nat` (node id and vnode index to token).  Hashing the
  same input twice yields the same token, which the parametrisation captures.
* The `parking_lot::RwLock` wrapper only serialises access; the sequential
  semantics of each `HashRing` method is the corresponding `RingInner`
  method, which is what we embed.
-/

namespace CHash

/-- Number of values of a `u64`: tokens live in `[0, U64)`. -/
def U64 : Nat := 2 ^ 64

/-- `u64::MAX`, the largest token (`Murmur3Token::max`). -/
def U64MAX : Nat := 2 ^ 64 - 1

/-- `Murmur3Token::distance_to` from `token/murmur3.rs`:
forward (clockwise) gap computed on the `u64` payloads. -/
def distanceTo (a b : Nat) : Nat :=
  if a ≤ b then b - a else (U64MAX - a) + b + 1

/-- `Node` from `node.rs`: id plus metadata.  `NodeId` (a `u128` newtype)
is modelled as `Nat`. -/
structure Node where
  id : Nat
  name : String
  datacenter : Option String
  rack : Option String
deriving DecidableEq

/-- `Node::new`: name only, no datacenter/rack. -/
def Node.new (id : Nat) (name : String) : Node :=
  ⟨id, name, none, none⟩

/-- `BTreeMap::insert` on a key-sorted association list: place the new entry
at its sorted position, overwriting an existing equal key. -/
def btreeInsert (k v : Nat) : List (Nat × Nat) → List (Nat × Nat)
  | [] => [(k, v)]
  | (k', v') :: rest =>
    if k < k' then (k, v) :: (k', v') :: rest
    else if k = k' then (k, v) :: rest
    else (k', v') :: btreeInsert k v rest

/-- `HashMap::insert`: overwrite the entry with this key, or append. -/
def mapInsert (k : Nat) (v : Node) : List (Nat × Node) → List (Nat × Node)
  | [] => [(k, v)]
  | (k', v') :: rest =>
    if k = k' then (k, v) :: rest else (k', v') :: mapInsert k v rest

/-- `HashMap::contains_key`. -/
def mapContains (l : List (Nat × Node)) (k : Nat) : Bool :=
  l.any (fun p => p.1 == k)

/-- `HashMap::get`. -/
def mapGet (l : List (Nat × Node)) (k : Nat) : Option Node :=
  (l.find? (fun p => p.1 == k)).map (·.2)

/-- `RingInner` from `ring/ring.rs`: the sorted token → node-id index and the
node registry. -/
structure RingInner where
  tokens : List (Nat × Nat)
  nodes : List (Nat × Node)
deriving DecidableEq

namespace RingInner

/-- `RingInner::new`: empty ring. -/
def new : RingInner := ⟨[], []⟩

/-- `RingInner::node_for_token`: clockwise search.  Empty ring: `none`.
Otherwise the first stored token ≥ the query (`range(token..).next()`),
falling back to the smallest stored token (`first_key_value`). -/
def nodeForToken (r : RingInner) (t : Nat) : Option Nat :=
  if r.tokens.isEmpty then none
  else
    match r.tokens.find? (fun p => decide (t ≤ p.1)) with
    | some p => some p.2
    | none => r.tokens.head?.map (·.2)

/-- `RingInner::add_node`: store/update the node metadata, then for each
`i < vnodes` insert the token `vh node.id i` (the hash of `"{node_id}:{i}"`)
mapped to `node.id`. -/
def addNode (vh : Nat → Nat → Nat) (node : Node) (vnodes : Nat)
    (r : RingInner) : RingInner :=
  { tokens := (List.range vnodes).foldl
      (fun ts i => btreeInsert (vh node.id i) node.id ts) r.tokens
    nodes := mapInsert node.id node r.nodes }

/-- `RingInner::remove_node`: `false` and no change when the id is not
registered; otherwise drop every token mapped to the id (`retain`), drop the
metadata, and return `true`. -/
def removeNode (r : RingInner) (id : Nat) : Bool × RingInner :=
  if mapContains r.nodes id then
    (true, ⟨r.tokens.filter (fun p => p.2 != id),
            r.nodes.filter (fun p => p.1 != id)⟩)
  else
    (false, r)

/-- `RingInner::get_node`. -/
def getNode (r : RingInner) (id : Nat) : Option Node :=
  mapGet r.nodes id

/-- `RingInner::token_count`. -/
def tokenCount (r : RingInner) : Nat := r.tokens.length

/-- `RingInner::node_count`. -/
def nodeCount (r : RingInner) : Nat := r.nodes.length

end RingInner

/-- `HashRing::lookup`: hash the key with the partitioner, then clockwise
search.  `ph` is `Murmur3Partitioner::partition` (SipHash-1-3 of the key
bytes). -/
def lookup (ph : List Nat → Nat) (r : RingInner) (key : List Nat) :
    Option Nat :=
  r.nodeForToken (ph key)

/-- `HashRing::lookup_node`: `lookup`, then `get_node` on the result. -/
def lookupNode (ph : List Nat → Nat) (r : RingInner) (key : List Nat) :
    Option Node :=
  match lookup ph r key with
  | none => none
  | some nid => r.getNode nid

/-- `HashRing::lookup_node_optimized`: single pass — hash, clockwise search,
metadata fetch. -/
def lookupNodeOptimized (ph : List Nat → Nat) (r : RingInner)
    (key : List Nat) : Option Node :=
  let t := ph key
  match r.nodeForToken t with
  | none => none
  | some nid => r.getNode nid

/-- The loop of `SimpleStrategy::replicas_for_key` over the precomputed
index sequence `(start_idx + i) % tokens.len()` for `i` in `1..tokens.len()`:
skip node ids already collected, otherwise push, and stop as soon as the
collection reaches the replication factor.  `replicas` and `seen_nodes` in
the source always hold the same set, so the accumulator serves as both. -/
def collectReplicas (toks : List (Nat × Nat)) (rf : Nat) :
    List Nat → List Nat → List Nat
  | acc, [] => acc
  | acc, idx :: rest =>
    let nid := (toks.getD idx (0, 0)).2
    if acc.contains nid then collectReplicas toks rf acc rest
    else
      let acc' := acc ++ [nid]
      if rf ≤ acc'.length then acc'
      else collectReplicas toks rf acc' rest

/-- `SimpleStrategy::replicas_for_key` from `strategy/simple.rs`.
`rf = 0`: empty.  Empty ring: empty.  Otherwise start from the first token
owned by the primary (`position(..).unwrap_or(0)`) and walk the token list
clockwise with wraparound.  `ring.tokens()` iterates the `BTreeMap` in key
order, so the source's `sort_by_key` leaves it unchanged and `r.tokens` is
already that sorted list. -/
def replicasForKey (ph : List Nat → Nat) (r : RingInner) (key : List Nat)
    (rf : Nat) : List Nat :=
  if rf = 0 then []
  else
    match lookup ph r key with
    | none => []
    | some primary =>
      let toks := r.tokens
      if toks.isEmpty then []
      else
        let j := toks.findIdx (fun p => p.2 == primary)
        let startIdx := if j < toks.length then j else 0
        let idxs := (List.range (toks.length - 1)).map
          (fun i => (startIdx + i + 1) % toks.length)
        collectReplicas toks rf [primary] idxs

/-- A mutating ring operation: `add_node` or `remove_node`. -/
inductive RingOp where
  | add (node : Node) (vnodes : Nat)
  | remove (id : Nat)

/-- Apply one ring operation (the write path of `HashRing`). -/
def applyOp (vh : Nat → Nat → Nat) (r : RingInner) : RingOp → RingInner
  | .add node v => r.addNode vh node v
  | .remove id => (r.removeNode id).2

/-- Run a sequence of operations from the empty ring. -/
def applyOps (vh : Nat → Nat → Nat) (ops : List RingOp) : RingInner :=
  ops.foldl (applyOp vh) RingInner.new

/-- Invariant I1: every token references a registered node. -/
def Inv1 (r : RingInner) : Prop :=
  ∀ p ∈ r.tokens, mapContains r.nodes p.2 = true

/-- Registry keys match the stored node's id (the registry is keyed by
`node.id` in `add_node`). -/
def InvIds (r : RingInner) : Prop :=
  ∀ q ∈ r.nodes, q.2.id = q.1

/-- A concrete injective stand-in for the vnode hash `"{id}:{i}" ↦ token`,
used to evaluate the ring at concrete inputs. -/
def vhDemo : Nat → Nat → Nat := fun id i => id * 16 + i

/-- A concrete stand-in for the key partitioner, used to evaluate the ring
at concrete inputs (the hashed token of the probed key is 5). -/
def phDemo : List Nat → Nat := fun _ => 5

/-- Concrete node 1. -/
def nodeOne : Node := Node.new 1 "node1"

/-- Concrete node 2. -/
def nodeTwo : Node := Node.new 2 "node2"

/-- Concrete two-node ring with one vnode each:
tokens `[(16, 1), (32, 2)]`. -/
def ringTwo : RingInner :=
  (RingInner.new.addNode vhDemo nodeOne 1).addNode vhDemo nodeTwo 1

end CHash

namespace CHash

/-! ### Helper lemmas on the map models -/

/-- An entry of `btreeInsert k v l` is the inserted pair or an old entry. -/
theorem btreeInsert_mem {k v : Nat} {l : List (Nat × Nat)} {q : Nat × Nat}
    (h : q ∈ btreeInsert k v l) : q = (k, v) ∨ q ∈ l := by
  induction l with
  | nil => simpa [btreeInsert] using h
  | cons a rest ih =>
    obtain ⟨ak, av⟩ := a
    unfold btreeInsert at h
    by_cases h1 : k < ak
    · simp only [if_pos h1, List.mem_cons] at h
      rcases h with h | h | h
      · exact Or.inl h
      · exact Or.inr (by simp [h])
      · exact Or.inr (List.mem_cons_of_mem _ h)
    · by_cases h2 : k = ak
      · simp only [if_neg h1, if_pos h2, List.mem_cons] at h
        rcases h with h | h
        · exact Or.inl (by simp [h, h2])
        · exact Or.inr (List.mem_cons_of_mem _ h)
      · simp only [if_neg h1, if_neg h2, List.mem_cons] at h
        rcases h with h | h
        · exact Or.inr (by simp [h])
        · rcases ih h with h' | h'
          · exact Or.inl h'
          · exact Or.inr (List.mem_cons_of_mem _ h')

/-- An entry of the vnode-insertion fold of `add_node` either carries the
added node's id or was already present. -/
theorem foldl_btreeInsert_mem (id : Nat) (f : Nat → Nat) :
    ∀ (is : List Nat) (init : List (Nat × Nat)) (q : Nat × Nat),
      q ∈ is.foldl (fun ts i => btreeInsert (f i) id ts) init →
      q.2 = id ∨ q ∈ init := by
  intro is
  induction is with
  | nil => intro init q h; exact Or.inr (by simpa using h)
  | cons i rest ih =>
    intro init q h
    simp only [List.foldl_cons] at h
    rcases ih _ q h with h' | h'
    · exact Or.inl h'
    · rcases btreeInsert_mem h' with h'' | h''
      · exact Or.inl (by simp [h''])
      · exact Or.inr h''

/-- Key-containment after a `HashMap` insert: the inserted key or an old one. -/
theorem mapContains_insert (k k' : Nat) (v : Node) (l : List (Nat × Node)) :
    mapContains (mapInsert k v l) k' = (k == k' || mapContains l k') := by
  induction l with
  | nil => simp [mapInsert, mapContains]
  | cons a rest ih =>
    obtain ⟨ak, av⟩ := a
    unfold mapInsert
    by_cases h : k = ak
    · subst h
      simp only [if_pos rfl, mapContains, List.any_cons]
      cases hk : (k == k') <;> simp [mapContains, hk]
    · simp only [if_neg h, mapContains, List.any_cons]
      have ih' := ih
      simp only [mapContains] at ih'
      rw [ih']
      cases hk : (ak == k') <;> cases hk2 : (k == k') <;> simp [hk, hk2]

/-- `get` after inserting the same key returns the inserted node. -/
theorem mapGet_insert_self (k : Nat) (v : Node) (l : List (Nat × Node)) :
    mapGet (mapInsert k v l) k = some v := by
  induction l with
  | nil => simp [mapInsert, mapGet, List.find?]
  | cons a rest ih =>
    obtain ⟨ak, av⟩ := a
    unfold mapInsert
    by_cases h : k = ak
    · simp [if_pos h, mapGet, List.find?]
    · have hne : (ak == k) = false := by
        simp [Ne.symm h]
      simp only [if_neg h, mapGet, List.find?, hne]
      simpa [mapGet] using ih

/-- A `true` containment yields the stored entry and its `get` result. -/
theorem mapContains_mapGet {l : List (Nat × Node)} {k : Nat}
    (h : mapContains l k = true) :
    ∃ q, q ∈ l ∧ q.1 = k ∧ mapGet l k = some q.2 := by
  have hex : ∃ p ∈ l, (p.1 == k) = true := by
    simpa [mapContains, List.any_eq_true] using h
  have hsome : (l.find? (fun p => p.1 == k)).isSome := List.find?_isSome.mpr hex
  obtain ⟨q, hq⟩ := Option.isSome_iff_exists.mp hsome
  refine ⟨q, List.mem_of_find?_eq_some hq, ?_, by simp [mapGet, hq]⟩
  simpa using List.find?_some hq

/-- Removing a key removes it from the containment check. -/
theorem mapContains_filter_self (l : List (Nat × Node)) (id : Nat) :
    mapContains (l.filter (fun p => p.1 != id)) id = false := by
  rw [Bool.eq_false_iff]
  intro hcon
  simp only [mapContains, List.any_eq_true, List.mem_filter] at hcon
  obtain ⟨p, ⟨_, hne⟩, hpk⟩ := hcon
  simp only [bne_iff_ne, ne_eq] at hne
  exact hne (by simpa using hpk)

/-- Removing one key keeps every other contained key contained. -/
theorem mapContains_filter_ne {l : List (Nat × Node)} {k id : Nat}
    (h : mapContains l k = true) (hne : k ≠ id) :
    mapContains (l.filter (fun p => p.1 != id)) k = true := by
  simp only [mapContains, List.any_eq_true] at h ⊢
  obtain ⟨p, hp, hpk⟩ := h
  have hpk' : p.1 = k := by simpa using hpk
  refine ⟨p, List.mem_filter.mpr ⟨hp, ?_⟩, hpk⟩
  simp [hpk', hne]

/-- `get` of a removed key is `none`. -/
theorem mapGet_filter_self (l : List (Nat × Node)) (id : Nat) :
    mapGet (l.filter (fun p => p.1 != id)) id = none := by
  unfold mapGet
  rw [List.find?_eq_none.mpr]
  · rfl
  · intro p hp
    have hne := (List.mem_filter.mp hp).2
    simp only [bne_iff_ne, ne_eq] at hne
    simp [hne]

end CHash

namespace CHash

/-! ### Lemmas on the clockwise lookup -/

/-- A successful clockwise lookup returns the id of some stored token. -/
theorem nodeForToken_mem {r : RingInner} {t nid : Nat}
    (h : r.nodeForToken t = some nid) : ∃ p, p ∈ r.tokens ∧ p.2 = nid := by
  unfold RingInner.nodeForToken at h
  by_cases he : r.tokens.isEmpty
  · simp [he] at h
  · rw [if_neg he] at h
    cases hf : r.tokens.find? (fun p => decide (t ≤ p.1)) with
    | some p =>
      rw [hf] at h
      exact ⟨p, List.mem_of_find?_eq_some hf, by injection h⟩
    | none =>
      rw [hf] at h
      cases hl : r.tokens with
      | nil => simp [hl] at he
      | cons a tl =>
        rw [hl] at h
        simp only [List.head?_cons, Option.map_some'] at h
        exact ⟨a, by simp [hl], by injection h⟩

/-- On a strictly key-sorted list, `find?` for a key bound `t` returns the
entry with the least key `≥ t`, when one exists. -/
theorem find?_ge_min (t : Nat) :
    ∀ (l : List (Nat × Nat)), l.Pairwise (fun a b => a.1 < b.1) →
      (∃ p ∈ l, t ≤ p.1) →
      ∃ q, l.find? (fun p => decide (t ≤ p.1)) = some q ∧ q ∈ l ∧ t ≤ q.1 ∧
        ∀ p ∈ l, t ≤ p.1 → q.1 ≤ p.1 := by
  intro l
  induction l with
  | nil => intro _ hex; simp at hex
  | cons a tl ih =>
    intro hs hex
    by_cases ha : t ≤ a.1
    · refine ⟨a, ?_, List.mem_cons_self a tl, ha, ?_⟩
      · simp [List.find?, ha]
      · intro p hp _
        rcases List.mem_cons.mp hp with h | h
        · simp [h]
        · exact le_of_lt ((List.pairwise_cons.mp hs).1 p h)
    · have hex' : ∃ p ∈ tl, t ≤ p.1 := by
        rcases hex with ⟨p, hp, hle⟩
        rcases List.mem_cons.mp hp with h | h
        · exact absurd (h ▸ hle) ha
        · exact ⟨p, h, hle⟩
      obtain ⟨q, hq, hqm, hqt, hqmin⟩ := ih (List.pairwise_cons.mp hs).2 hex'
      refine ⟨q, ?_, List.mem_cons_of_mem _ hqm, hqt, ?_⟩
      · simp [List.find?, ha, hq]
      · intro p hp hpt
        rcases List.mem_cons.mp hp with h | h
        · exact absurd (h ▸ hpt) ha
        · exact hqmin p h hpt

/-- On a strictly key-sorted nonempty list, the head has the least key. -/
theorem sorted_head_min {a : Nat × Nat} {l : List (Nat × Nat)}
    (hs : (a :: l).Pairwise (fun x y => x.1 < y.1)) :
    ∀ p ∈ a :: l, a.1 ≤ p.1 := by
  intro p hp
  rcases List.mem_cons.mp hp with h | h
  · simp [h]
  · exact le_of_lt ((List.pairwise_cons.mp hs).1 p h)

/-! ### Invariant I1 is preserved by the write operations -/

/-- `add_node` preserves invariant I1. -/
theorem inv1_addNode {r : RingInner} (h : Inv1 r) (vh : Nat → Nat → Nat)
    (node : Node) (v : Nat) : Inv1 (r.addNode vh node v) := by
  intro p hp
  have hmem : p.2 = node.id ∨ p ∈ r.tokens :=
    foldl_btreeInsert_mem node.id (fun i => vh node.id i) (List.range v)
      r.tokens p hp
  show mapContains (mapInsert node.id node r.nodes) p.2 = true
  rw [mapContains_insert]
  rcases hmem with h1 | h1
  · simp [h1]
  · simp [h p h1]

/-- `remove_node` preserves invariant I1. -/
theorem inv1_removeNode {r : RingInner} (h : Inv1 r) (id : Nat) :
    Inv1 (r.removeNode id).2 := by
  unfold RingInner.removeNode
  by_cases hc : mapContains r.nodes id
  · rw [if_pos hc]
    intro p hp
    obtain ⟨hpl, hpne⟩ := List.mem_filter.mp hp
    have hne : p.2 ≠ id := by simpa using hpne
    exact mapContains_filter_ne (h p hpl) hne
  · rw [if_neg hc]
    exact h

/-- Every single write operation preserves invariant I1. -/
theorem inv1_applyOp {r : RingInner} (h : Inv1 r) (vh : Nat → Nat → Nat)
    (op : RingOp) : Inv1 (applyOp vh r op) := by
  cases op with
  | add node v => exact inv1_addNode h vh node v
  | remove id => exact inv1_removeNode h id

/-- Invariant I1 holds in every state reachable from the empty ring. -/
theorem inv1_reachable (vh : Nat → Nat → Nat) (ops : List RingOp) :
    Inv1 (applyOps vh ops) := by
  have hgen : ∀ (l : List RingOp) (r : RingInner), Inv1 r →
      Inv1 (l.foldl (applyOp vh) r) := by
    intro l
    induction l with
    | nil => intro r h; exact h
    | cons op rest ih =>
      intro r h
      exact ih _ (inv1_applyOp h vh op)
  exact hgen ops RingInner.new (by intro p hp; simp [RingInner.new] at hp)

end CHash

namespace CHash

/-! ### Claim theorems -/

/-- Claim C4: in every ring state reachable from the empty ring by any
sequence of `add_node` and `remove_node` calls, every NodeId stored in the
token-to-node index is also a key of the node registry. -/
theorem c4_inv1_reachable (vh : Nat → Nat → Nat) (ops : List RingOp) :
    Inv1 (applyOps vh ops) :=
  inv1_reachable vh ops

/-- Claim C6: `distance_to` computes the forward (clockwise) gap — `b - a`
when `b ≥ a`, and `(max - a) + b + 1` otherwise — and for `u64` operands the
arithmetic stays inside the 64-bit range (the result is below `2^64`, so no
wrap occurs), agreeing with the ideal modular distance `(b + 2^64 - a) mod
2^64` on the whole domain including the boundaries `0` and `u64::MAX`. -/
theorem c6_distance_to_wraparound (a b : Nat) (ha : a < U64) (hb : b < U64) :
    distanceTo a b < U64 ∧
    (a ≤ b → distanceTo a b = b - a) ∧
    (b < a → distanceTo a b = (U64MAX - a) + b + 1) ∧
    distanceTo a b = (b + U64 - a) % U64 := by
  have h64 : U64 = 18446744073709551616 := by norm_num [U64]
  have hmax : U64MAX = 18446744073709551615 := by norm_num [U64MAX]
  rw [h64] at ha hb
  unfold distanceTo
  rw [h64, hmax]
  refine ⟨?_, ?_, ?_, ?_⟩
  · split <;> omega
  · intro h; rw [if_pos h]
  · intro h; rw [if_neg (by omega)]
  · split <;> omega

/-- Claim C7: `remove_node` on an absent id returns `false` and leaves the
ring state — in particular `token_count` and `node_count` — unchanged, and a
repeated call on the same id again returns `false` and changes nothing. -/
theorem c7_remove_absent (r : RingInner) (id : Nat)
    (h : mapContains r.nodes id = false) :
    r.removeNode id = (false, r) ∧
    (r.removeNode id).2.tokenCount = r.tokenCount ∧
    (r.removeNode id).2.nodeCount = r.nodeCount ∧
    (r.removeNode id).2.removeNode id = (false, (r.removeNode id).2) := by
  have h1 : r.removeNode id = (false, r) := by
    unfold RingInner.removeNode
    rw [if_neg (by simp [h])]
  refine ⟨h1, by rw [h1], by rw [h1], by rw [h1]; exact h1⟩

/-- Claim C7 witness: removing the absent id 999 from the concrete two-node
ring returns `false` and leaves the ring unchanged. -/
theorem c7_remove_absent_witness :
    mapContains ringTwo.nodes 999 = false ∧
    (ringTwo.removeNode 999 = (false, ringTwo) ∧
     (ringTwo.removeNode 999).2.tokenCount = ringTwo.tokenCount ∧
     (ringTwo.removeNode 999).2.nodeCount = ringTwo.nodeCount ∧
     (ringTwo.removeNode 999).2.removeNode 999 =
       (false, (ringTwo.removeNode 999).2)) :=
  ⟨by decide, c7_remove_absent ringTwo 999 (by decide)⟩

/-- Claim C8: after `remove_node(id)` on a registered id, no stored token
maps to `id`, `get_node(id)` is `none`, and the call reported `true`. -/
theorem c8_remove_complete (r : RingInner) (id : Nat)
    (h : mapContains r.nodes id = true) :
    (∀ p ∈ (r.removeNode id).2.tokens, p.2 ≠ id) ∧
    (r.removeNode id).2.getNode id = none ∧
    (r.removeNode id).1 = true := by
  have hr : r.removeNode id =
      (true, ⟨r.tokens.filter (fun p => p.2 != id),
              r.nodes.filter (fun p => p.1 != id)⟩) := by
    unfold RingInner.removeNode
    rw [if_pos h]
  refine ⟨?_, ?_, by rw [hr]⟩
  · intro p hp
    rw [hr] at hp
    have := (List.mem_filter.mp hp).2
    simpa using this
  · rw [hr]
    exact mapGet_filter_self r.nodes id

/-- Claim C8 witness: removing the registered id 1 from the concrete
two-node ring deletes its token and its metadata. -/
theorem c8_remove_complete_witness :
    mapContains ringTwo.nodes 1 = true ∧
    ((∀ p ∈ (ringTwo.removeNode 1).2.tokens, p.2 ≠ 1) ∧
     (ringTwo.removeNode 1).2.getNode 1 = none ∧
     (ringTwo.removeNode 1).1 = true) :=
  ⟨by decide, c8_remove_complete ringTwo 1 (by decide)⟩

end CHash

namespace CHash

/-- Claim C6 witness: the theorem applied at the boundary pair
`(u64::MAX, 0)`, where the wraparound distance is 1. -/
theorem c6_distance_to_wraparound_witness :
    U64MAX < U64 ∧ 0 < U64 ∧
    (distanceTo U64MAX 0 < U64 ∧
     (U64MAX ≤ 0 → distanceTo U64MAX 0 = 0 - U64MAX) ∧
     (0 < U64MAX → distanceTo U64MAX 0 = (U64MAX - U64MAX) + 0 + 1) ∧
     distanceTo U64MAX 0 = (0 + U64 - U64MAX) % U64) :=
  ⟨by norm_num [U64, U64MAX], by norm_num [U64],
   c6_distance_to_wraparound U64MAX 0 (by norm_num [U64, U64MAX])
     (by norm_num [U64])⟩

/-- Claim C3: on a non-empty ring whose token index is (strictly) sorted,
`lookup` hashes the key and returns the NodeId stored at the least token
`≥` the hashed token; when every stored token is below the hashed token it
returns the NodeId stored at the least stored token (wraparound). -/
theorem c3_lookup_clockwise (ph : List Nat → Nat) (r : RingInner)
    (key : List Nat) (hs : r.tokens.Pairwise (fun a b => a.1 < b.1))
    (hne : r.tokens ≠ []) :
    ((∃ p ∈ r.tokens, ph key ≤ p.1) →
      ∃ q ∈ r.tokens, ph key ≤ q.1 ∧
        (∀ p ∈ r.tokens, ph key ≤ p.1 → q.1 ≤ p.1) ∧
        lookup ph r key = some q.2) ∧
    ((∀ p ∈ r.tokens, p.1 < ph key) →
      ∃ q ∈ r.tokens, (∀ p ∈ r.tokens, q.1 ≤ p.1) ∧
        lookup ph r key = some q.2) := by
  have hemp : r.tokens.isEmpty = false := by
    cases hl : r.tokens with
    | nil => exact absurd hl hne
    | cons a tl => simp
  constructor
  · intro hex
    obtain ⟨q, hfind, hqm, hqt, hqmin⟩ := find?_ge_min (ph key) r.tokens hs hex
    refine ⟨q, hqm, hqt, hqmin, ?_⟩
    unfold lookup RingInner.nodeForToken
    rw [if_neg (by simp [hemp]), hfind]
  · intro hall
    have hfind : r.tokens.find? (fun p => decide (ph key ≤ p.1)) = none := by
      rw [List.find?_eq_none]
      intro p hp
      simp [Nat.not_le.mpr (hall p hp)]
    cases hl : r.tokens with
    | nil => exact absurd hl hne
    | cons a tl =>
      refine ⟨a, by simp [hl], ?_, ?_⟩
      · rw [← hl]
        intro p hp
        exact sorted_head_min (hl ▸ hs) p (hl ▸ hp)
      · unfold lookup RingInner.nodeForToken
        rw [if_neg (by simp [hemp]), hfind, hl]
        simp

/-- Claim C3 witness: the theorem applied to the concrete two-node ring with
tokens `[(16, 1), (32, 2)]` and a key hashing to 5, which resolves to the
first branch (the least stored token `≥ 5` is 16, owned by node 1). -/
theorem c3_lookup_clockwise_witness :
    ringTwo.tokens.Pairwise (fun a b => a.1 < b.1) ∧
    ringTwo.tokens ≠ [] ∧
    (((∃ p ∈ ringTwo.tokens, phDemo [] ≤ p.1) →
      ∃ q ∈ ringTwo.tokens, phDemo [] ≤ q.1 ∧
        (∀ p ∈ ringTwo.tokens, phDemo [] ≤ p.1 → q.1 ≤ p.1) ∧
        lookup phDemo ringTwo [] = some q.2) ∧
     ((∀ p ∈ ringTwo.tokens, p.1 < phDemo []) →
      ∃ q ∈ ringTwo.tokens, (∀ p ∈ ringTwo.tokens, q.1 ≤ p.1) ∧
        lookup phDemo ringTwo [] = some q.2)) :=
  ⟨by decide, by decide,
   c3_lookup_clockwise phDemo ringTwo [] (by decide) (by decide)⟩

end CHash

namespace CHash

/-- Claim C5: for a fixed ring state, `lookup_node` equals the single-pass
`lookup_node_optimized`, and equals the composition of `lookup` with
`get_node`: when `lookup` is `none` both are `none`, and when `lookup`
returns an id (under invariant I1 and id-keyed registry entries) both return
the registered node whose id is that lookup result. -/
theorem c5_lookup_node_equiv (ph : List Nat → Nat) (r : RingInner)
    (key : List Nat) (h1 : Inv1 r) (h2 : InvIds r) :
    lookupNode ph r key = lookupNodeOptimized ph r key ∧
    (lookup ph r key = none → lookupNode ph r key = none) ∧
    (∀ nid, lookup ph r key = some nid →
      ∃ nd, lookupNode ph r key = some nd ∧ nd.id = nid ∧
        r.getNode nid = some nd) := by
  refine ⟨rfl, ?_, ?_⟩
  · intro h
    unfold lookupNode
    rw [h]
  · intro nid h
    obtain ⟨p, hp, hpid⟩ := nodeForToken_mem (show r.nodeForToken (ph key) = some nid from h)
    have hc : mapContains r.nodes nid = true := by
      have := h1 p hp
      rwa [hpid] at this
    obtain ⟨q, hql, hqk, hqget⟩ := mapContains_mapGet hc
    refine ⟨q.2, ?_, ?_, hqget⟩
    · unfold lookupNode
      rw [h]
      exact hqget
    · rw [h2 q hql, hqk]

/-- Claim C5 witness: the theorem applied to the concrete two-node ring and
a key hashing to 5 (lookup result: node 1). -/
theorem c5_lookup_node_equiv_witness :
    Inv1 ringTwo ∧ InvIds ringTwo ∧
    (lookupNode phDemo ringTwo [] = lookupNodeOptimized phDemo ringTwo [] ∧
     (lookup phDemo ringTwo [] = none → lookupNode phDemo ringTwo [] = none) ∧
     (∀ nid, lookup phDemo ringTwo [] = some nid →
       ∃ nd, lookupNode phDemo ringTwo [] = some nd ∧ nd.id = nid ∧
         ringTwo.getNode nid = some nd)) :=
  ⟨by unfold Inv1; decide, by unfold InvIds; decide,
   c5_lookup_node_equiv phDemo ringTwo []
     (by unfold Inv1; decide) (by unfold InvIds; decide)⟩

/-- Claim C9: a ring with zero nodes that satisfies invariant I1 has zero
tokens, and `lookup` and `lookup_node` return `none` for every key and
every partitioner; the counts are 0.  The empty case is a normal `none`
result, not a failure. -/
theorem c9_empty_ring_safety (r : RingInner) (h0 : r.nodeCount = 0)
    (h1 : Inv1 r) :
    r.tokenCount = 0 ∧ r.nodeCount = 0 ∧
    (∀ (ph : List Nat → Nat) (key : List Nat), lookup ph r key = none) ∧
    (∀ (ph : List Nat → Nat) (key : List Nat), lookupNode ph r key = none) := by
  have hnodes : r.nodes = [] := List.length_eq_zero.mp h0
  have htokens : r.tokens = [] := by
    cases hl : r.tokens with
    | nil => rfl
    | cons a tl =>
      have := h1 a (by simp [hl])
      rw [hnodes] at this
      simp [mapContains] at this
  have hlook : ∀ (ph : List Nat → Nat) (key : List Nat),
      lookup ph r key = none := by
    intro ph key
    unfold lookup RingInner.nodeForToken
    rw [if_pos (by simp [htokens])]
  refine ⟨by simp [RingInner.tokenCount, htokens], h0, hlook, ?_⟩
  intro ph key
  unfold lookupNode
  rw [hlook ph key]

/-- Claim C9 witness: the theorem applied to the freshly created empty ring. -/
theorem c9_empty_ring_safety_witness :
    RingInner.new.nodeCount = 0 ∧ Inv1 RingInner.new ∧
    (RingInner.new.tokenCount = 0 ∧ RingInner.new.nodeCount = 0 ∧
     (∀ (ph : List Nat → Nat) (key : List Nat),
       lookup ph RingInner.new key = none) ∧
     (∀ (ph : List Nat → Nat) (key : List Nat),
       lookupNode ph RingInner.new key = none)) :=
  ⟨by decide, by unfold Inv1; decide,
   c9_empty_ring_safety RingInner.new (by decide) (by unfold Inv1; decide)⟩

/-- Claim C10: `add_node` with a vnode count of 0 registers the node's
metadata without inserting any tokens: on the empty ring the result has
`get_node` returning the node, `node_count = 1`, `token_count = 0`, and
`lookup` still `none` for every key (lookup is empty exactly when the token
index is empty); in general the token index is left untouched and the node
becomes retrievable. -/
theorem c10_add_zero_vnodes (vh : Nat → Nat → Nat) (node : Node) :
    (RingInner.new.addNode vh node 0).getNode node.id = some node ∧
    (RingInner.new.addNode vh node 0).nodeCount = 1 ∧
    (RingInner.new.addNode vh node 0).tokenCount = 0 ∧
    (∀ (ph : List Nat → Nat) (key : List Nat),
      lookup ph (RingInner.new.addNode vh node 0) key = none) ∧
    (∀ r : RingInner, (r.addNode vh node 0).tokens = r.tokens ∧
      (r.addNode vh node 0).tokenCount = r.tokenCount ∧
      (r.addNode vh node 0).getNode node.id = some node) := by
  have htoks : ∀ r : RingInner, (r.addNode vh node 0).tokens = r.tokens := by
    intro r
    unfold RingInner.addNode
    simp
  have hnewtoks : (RingInner.new.addNode vh node 0).tokens = [] := by
    simp [RingInner.addNode, RingInner.new]
  refine ⟨?_, ?_, ?_, ?_, ?_⟩
  · exact mapGet_insert_self node.id node RingInner.new.nodes
  · rfl
  · simp [RingInner.tokenCount, hnewtoks]
  · intro ph key
    unfold lookup RingInner.nodeForToken
    rw [if_pos (by simp [hnewtoks])]
  · intro r
    exact ⟨htoks r, by simp [RingInner.tokenCount, htoks r],
      mapGet_insert_self node.id node r.nodes⟩

/-- Claim C1 (code bug evaluation): with replication factor 1 on a two-node
ring, `SimpleStrategy::replicas_for_key` returns TWO entries — the break
check runs only after a push while the primary is already seeded, so the
walk always adds one more distinct node when one exists.  The result does
keep the lookup result at entry 0, but its length 2 exceeds
`min(n, node_count) = min(1, 2) = 1`. -/
theorem c1_rf1_returns_two_replicas :
    replicasForKey phDemo ringTwo [] 1 = [1, 2] ∧
    (replicasForKey phDemo ringTwo [] 1).length = 2 ∧
    ringTwo.nodeCount = 2 ∧
    lookup phDemo ringTwo [] = some 1 := by decide

/-- Claim C2 (code bug evaluation): re-adding the same node with the same
vnode count regenerates the identical vnode keys `"{id}:{i}"`, so the
second `add_node` overwrites the existing `BTreeMap` entries instead of
appending: with an injective vnode hash, after adding node 1 with 4 vnodes
twice the ring state is unchanged by the second call — `token_count` is 4,
not the 8 asserted by the spec and by the repository's own
`test_idempotent_add`. -/
theorem c2_readd_overwrites_tokens :
    (RingInner.new.addNode vhDemo nodeOne 4).tokenCount = 4 ∧
    ((RingInner.new.addNode vhDemo nodeOne 4).addNode vhDemo nodeOne 4).tokenCount
      = 4 ∧
    (RingInner.new.addNode vhDemo nodeOne 4).addNode vhDemo nodeOne 4
      = RingInner.new.addNode vhDemo nodeOne 4 ∧
    ((RingInner.new.addNode vhDemo nodeOne 4).addNode vhDemo nodeOne 4).nodeCount
      = 1 := by decide

end CHash
